import Mathlib

/-!
Shallow embedding of the Brainfuck interpreter in src/main.cpp.

The embedding mirrors the source:
* BFInstruction is the instruction enum.
* to_inst is BFInterpreter::to_inst (the switch on the source character).
* parse_insts is BFInterpreter::parse_insts: for an empty source it returns
  early (leaving the instruction vector empty and, in the C++ code, the
  iterator uninitialized, which iter_init records as none); otherwise it
  resizes to length+1 COMMENT entries, fills the decoded instructions by
  index, and then push_backs END_OF_PROGRAM.
* next_inst / prev_inst mirror BFInterpreter::next_inst / prev_inst over the
  pair (instruction list, iterator position).  The iterator position is an
  Int: -1 stands for begin()-1 and length stands for end().  Dereferencing a
  position outside the vector (e.g. *end()) is undefined behaviour in the
  C++ code and is modelled as none.
* skip_loop / restart_loop mirror the scanning while-loops of
  BFInterpreter::skip_loop / restart_loop.  Those loops need not terminate
  in C++, so the embedding takes a fuel argument; returning none means the
  scan either ran out of fuel or performed an out-of-bounds dereference.
* exec_inst and run mirror the body of BFInterpreter::run; run returns the
  final state when END_OF_PROGRAM is fetched, and none on out-of-fuel or on
  undefined behaviour (out-of-range tape or instruction access).
* The tape is a function Int → Nat holding byte values; cells are in range
  0 ≤ i < BF_PTR_SIZE; m_input_stream >> *m_ptr is formatted extraction
  into an unsigned char: leading whitespace is skipped, and on an exhausted
  stream the cell is left unchanged.
-/

inductive BFInstruction where
  | INCR_PTR
  | DECR_PTR
  | INCR_BYTE
  | DECR_BYTE
  | OUT_BYTE
  | READ_BYTE
  | WHILE_BEGIN
  | WHILE_END
  | COMMENT
  | END_OF_PROGRAM
deriving DecidableEq

open BFInstruction

/-- BFInterpreter::to_inst: the switch mapping a source character to an
instruction; every character not among the eight meaningful symbols falls
through to COMMENT. -/
def to_inst (c : Char) : BFInstruction :=
  if c = '>' then INCR_PTR
  else if c = '<' then DECR_PTR
  else if c = '+' then INCR_BYTE
  else if c = '-' then DECR_BYTE
  else if c = '.' then OUT_BYTE
  else if c = ',' then READ_BYTE
  else if c = '[' then WHILE_BEGIN
  else if c = ']' then WHILE_END
  else COMMENT

/-- BFInterpreter::parse_insts.  For a zero-length file the function returns
early with the instruction vector still empty (and no END_OF_PROGRAM
appended).  Otherwise m_insts is resized to length+1 COMMENT entries, each
decoded non-COMMENT instruction is written at its byte index, and then
END_OF_PROGRAM is pushed back. -/
def parse_insts (src : List Char) : List BFInstruction :=
  if src.length = 0 then []
  else
    let base := List.replicate (src.length + 1) COMMENT
    let filled := src.enum.foldl
      (fun acc ic =>
        if to_inst ic.2 = COMMENT then acc else acc.set ic.1 (to_inst ic.2))
      base
    filled ++ [END_OF_PROGRAM]

/-- The final statement of parse_insts sets m_insts_iter = m_insts.begin() - 1;
for an empty source that statement is never reached and the iterator member
stays uninitialized, modelled as none. -/
def iter_init (src : List Char) : Option Int :=
  if src.length = 0 then none else some (-1)

/-- Element of the instruction vector at an Int position; none for any
position outside the vector (such dereferences are undefined behaviour in
the C++ code). -/
def getI (l : List BFInstruction) (i : Int) : Option BFInstruction :=
  if i < 0 then none else l.get? i.toNat

/-- BFInterpreter::next_inst over (list, iterator position): if the iterator
is at end() it is dereferenced in place (out of bounds, none); otherwise it
is pre-incremented and dereferenced. -/
def next_inst (l : List BFInstruction) (it : Int) :
    Option (BFInstruction × Int) :=
  if it = (l.length : Int) then (getI l it).map (fun i => (i, it))
  else (getI l (it + 1)).map (fun i => (i, it + 1))

/-- BFInterpreter::prev_inst: at begin() the iterator is dereferenced without
moving; otherwise it is pre-decremented and dereferenced. -/
def prev_inst (l : List BFInstruction) (it : Int) :
    Option (BFInstruction × Int) :=
  if it = 0 then (getI l 0).map (fun i => (i, 0))
  else (getI l (it - 1)).map (fun i => (i, it - 1))

/-- Effect of one scanned instruction on the loops counter of
BFInterpreter::skip_loop (loop-start increments, loop-end decrements). -/
def adjF (i : BFInstruction) : Int :=
  if i = WHILE_BEGIN then 1 else if i = WHILE_END then -1 else 0

/-- Effect of one scanned instruction on the loops counter of
BFInterpreter::restart_loop (loop-start decrements, loop-end increments). -/
def adjB (i : BFInstruction) : Int :=
  if i = WHILE_BEGIN then -1 else if i = WHILE_END then 1 else 0

/-- The while (loops > 0) scan of BFInterpreter::skip_loop, started with
loops = 1 for the loop-start just fetched.  Returns the iterator position at
which the scan stops, none on an out-of-bounds fetch or exhausted fuel. -/
def skip_loop (l : List BFInstruction) : Nat → Int → Int → Option Int
  | 0, _, _ => none
  | fuel + 1, it, loops =>
    if loops ≤ 0 then some it
    else
      match next_inst l it with
      | none => none
      | some (i, it2) => skip_loop l fuel it2 (loops + adjF i)

/-- The while (loops > 0) scan of BFInterpreter::restart_loop, started with
loops = 1 for the loop-end just fetched. -/
def restart_loop (l : List BFInstruction) : Nat → Int → Int → Option Int
  | 0, _, _ => none
  | fuel + 1, it, loops =>
    if loops ≤ 0 then some it
    else
      match prev_inst l it with
      | none => none
      | some (i, it2) => restart_loop l fuel it2 (loops + adjB i)

def BF_PTR_SIZE : Nat := 30000

/-- Machine state of BFInterpreter during run(): the decoded instruction
vector, the instruction iterator position, the tape with its data pointer,
and the two byte streams. -/
structure BFState where
  insts : List BFInstruction
  iter : Int
  tape : Int → Nat
  ptr : Int
  input : List Nat
  output : List Nat

/-- Dereference *m_ptr; none when the pointer left the tape (undefined
behaviour in the C++ code). -/
def tapeGet (st : BFState) : Option Nat :=
  if 0 ≤ st.ptr ∧ st.ptr < (BF_PTR_SIZE : Int) then some (st.tape st.ptr)
  else none

/-- Write through *m_ptr; none when the pointer left the tape. -/
def tapeSet (st : BFState) (v : Nat) : Option BFState :=
  if 0 ≤ st.ptr ∧ st.ptr < (BF_PTR_SIZE : Int) then
    some { st with tape := fun j => if j = st.ptr then v else st.tape j }
  else none

/-- Whitespace characters skipped by formatted extraction
(m_input_stream >> *m_ptr) in the default locale. -/
def is_ws (b : Nat) : Bool :=
  b = 32 || b = 9 || b = 10 || b = 11 || b = 12 || b = 13

/-- One arm of the switch in BFInterpreter::run, applied to the state after
the fetch.  The fuel is passed on to the skip/restart scans. -/
def exec_inst (i : BFInstruction) (fuel : Nat) (st : BFState) :
    Option BFState :=
  match i with
  | INCR_PTR => some { st with ptr := st.ptr + 1 }
  | DECR_PTR => some { st with ptr := st.ptr - 1 }
  | INCR_BYTE => (tapeGet st).bind fun v => tapeSet st ((v + 1) % 256)
  | DECR_BYTE => (tapeGet st).bind fun v => tapeSet st ((v + 255) % 256)
  | OUT_BYTE =>
      (tapeGet st).map fun v => { st with output := st.output ++ [v] }
  | READ_BYTE =>
      match st.input.dropWhile is_ws with
      | [] => some st
      | b :: rest => tapeSet { st with input := rest } b
  | WHILE_BEGIN =>
      (tapeGet st).bind fun v =>
        if v = 0 then
          (skip_loop st.insts fuel st.iter 1).map
            (fun it2 => { st with iter := it2 })
        else some st
  | WHILE_END =>
      (tapeGet st).bind fun v =>
        if v = 0 then some st
        else
          (restart_loop st.insts fuel st.iter 1).map
            (fun it2 => { st with iter := it2 })
  | COMMENT => some st
  | END_OF_PROGRAM => some st

/-- The while (true) fetch/dispatch loop of BFInterpreter::run.  Returns the
state at the END_OF_PROGRAM fetch; none on exhausted fuel or undefined
behaviour. -/
def run : Nat → BFState → Option BFState
  | 0, _ => none
  | fuel + 1, st =>
    match next_inst st.insts st.iter with
    | none => none
    | some (i, it2) =>
      if i = END_OF_PROGRAM then some { st with iter := it2 }
      else (exec_inst i fuel { st with iter := it2 }).bind (run fuel)

/-- State built by the BFInterpreter constructor: zero-filled tape, data
pointer at the first cell, instructions from parse_insts.  For an empty
source the iterator member is never initialized and any use of it is
undefined, so no state is produced. -/
def initState (src : List Char) (input : List Nat) : Option BFState :=
  match iter_init src with
  | none => none
  | some it0 =>
      some { insts := parse_insts src, iter := it0, tape := fun _ => 0,
             ptr := 0, input := input, output := [] }

/-- Construct the interpreter on the given source and run it. -/
def runProgram (fuel : Nat) (src : List Char) (input : List Nat) :
    Option BFState :=
  (initState src input).bind (run fuel)

set_option maxRecDepth 10000

/-! ### Unfolding equations for the fueled scans -/

lemma skip_loop_zero (l : List BFInstruction) (it loops : Int) :
    skip_loop l 0 it loops = none := rfl

lemma skip_loop_succ (l : List BFInstruction) (f : Nat) (it loops : Int) :
    skip_loop l (f + 1) it loops =
      if loops ≤ 0 then some it
      else
        match next_inst l it with
        | none => none
        | some (i, it2) => skip_loop l f it2 (loops + adjF i) := rfl

lemma restart_loop_zero (l : List BFInstruction) (it loops : Int) :
    restart_loop l 0 it loops = none := rfl

lemma restart_loop_succ (l : List BFInstruction) (f : Nat) (it loops : Int) :
    restart_loop l (f + 1) it loops =
      if loops ≤ 0 then some it
      else
        match prev_inst l it with
        | none => none
        | some (i, it2) => restart_loop l f it2 (loops + adjB i) := rfl

/-! ### Inversion lemmas for the fetch primitives -/

lemma getI_eq_some {l : List BFInstruction} {i : Int} {x : BFInstruction} :
    getI l i = some x ↔ 0 ≤ i ∧ l.get? i.toNat = some x := by
  unfold getI
  constructor
  · intro h
    split at h
    · exact absurd h (by simp)
    · rename_i hh
      exact ⟨by omega, h⟩
  · rintro ⟨h0, h⟩
    rw [if_neg (by omega)]
    exact h

lemma getI_lt_length {l : List BFInstruction} {i : Int} {x : BFInstruction}
    (h : getI l i = some x) : 0 ≤ i ∧ i < (l.length : Int) := by
  rcases getI_eq_some.mp h with ⟨h0, hget⟩
  rcases List.get?_eq_some.mp hget with ⟨hlt, _⟩
  omega

lemma getI_end (l : List BFInstruction) : getI l (l.length : Int) = none := by
  unfold getI
  rw [if_neg (by omega)]
  apply List.get?_len_le
  omega

lemma next_inst_eq_some {l : List BFInstruction} {it it2 : Int}
    {i : BFInstruction} (h : next_inst l it = some (i, it2)) :
    it2 = it + 1 ∧ getI l (it + 1) = some i := by
  unfold next_inst at h
  by_cases he : it = (l.length : Int)
  · rw [if_pos he, he, getI_end] at h
    simp at h
  · rw [if_neg he] at h
    rcases Option.map_eq_some'.mp h with ⟨a, ha, hab⟩
    have h1 : a = i := congrArg Prod.fst hab
    have h2 : it + 1 = it2 := congrArg Prod.snd hab
    subst h1
    exact ⟨h2.symm, ha⟩

lemma prev_inst_eq_some {l : List BFInstruction} {it it2 : Int}
    {i : BFInstruction} (h : prev_inst l it = some (i, it2)) :
    getI l it2 = some i ∧ ((it = 0 ∧ it2 = 0) ∨ (it ≠ 0 ∧ it2 = it - 1)) := by
  unfold prev_inst at h
  by_cases he : it = 0
  · rw [if_pos he] at h
    rcases Option.map_eq_some'.mp h with ⟨a, ha, hab⟩
    have h1 : a = i := congrArg Prod.fst hab
    have h2 : (0 : Int) = it2 := congrArg Prod.snd hab
    subst h1
    exact ⟨h2 ▸ ha, Or.inl ⟨he, h2.symm⟩⟩
  · rw [if_neg he] at h
    rcases Option.map_eq_some'.mp h with ⟨a, ha, hab⟩
    have h1 : a = i := congrArg Prod.fst hab
    have h2 : it - 1 = it2 := congrArg Prod.snd hab
    subst h1
    exact ⟨h2 ▸ ha, Or.inr ⟨he, h2.symm⟩⟩

lemma adjB_bounds (i : BFInstruction) : -1 ≤ adjB i ∧ adjB i ≤ 1 := by
  cases i <;> exact ⟨by decide, by decide⟩

lemma adjB_eq_neg_one {i : BFInstruction} (h : adjB i = -1) :
    i = WHILE_BEGIN := by
  cases i <;> simp_all [adjB]

/-- Where the backward scan of restart_loop can stop: only right after
having read a WHILE_BEGIN through prev_inst, so the final iterator position
holds the loop-start itself. -/
lemma restart_loop_stops (l : List BFInstruction) :
    ∀ (fuel : Nat) (it loops x : Int), 1 ≤ loops →
      restart_loop l fuel it loops = some x →
      getI l x = some WHILE_BEGIN := by
  intro fuel
  induction fuel with
  | zero =>
    intro it loops x h hr
    rw [restart_loop_zero] at hr
    exact absurd hr (by simp)
  | succ f ih =>
    intro it loops x h hr
    rw [restart_loop_succ, if_neg (by omega)] at hr
    cases hp : prev_inst l it with
    | none => rw [hp] at hr; exact absurd hr (by simp)
    | some p =>
      obtain ⟨i, it2⟩ := p
      rw [hp] at hr
      have hr2 : restart_loop l f it2 (loops + adjB i) = some x := hr
      by_cases hl : 1 ≤ loops + adjB i
      · exact ih it2 (loops + adjB i) x hl hr2
      · rcases adjB_bounds i with ⟨hb1, hb2⟩
        have ha : adjB i = -1 := by omega
        cases f with
        | zero =>
          rw [restart_loop_zero] at hr2
          exact absurd hr2 (by simp)
        | succ g =>
          rw [restart_loop_succ, if_pos (by omega)] at hr2
          have hx : it2 = x := by simpa using hr2
          have hgi := (prev_inst_eq_some hp).1
          rw [hx] at hgi
          rw [hgi, adjB_eq_neg_one ha]

/-! ### Claim C1 -/

/-- Claim C1, counterexample: running ++[-] , the taken loop-end at
position 4 makes the backward scan stop at position 2 (the loop-start
itself), and the very next forward fetch returns the DECR_BYTE at
position 3 — the body instruction following the loop-start — not the
loop-start, so the guard is not re-fetched. -/
theorem c1_counterexample :
    restart_loop (parse_insts ['+', '+', '[', '-', ']']) 10 4 1 = some 2 ∧
    next_inst (parse_insts ['+', '+', '[', '-', ']']) 2 =
      some (DECR_BYTE, 3) ∧
    DECR_BYTE ≠ WHILE_BEGIN := by
  decide

/-- Claim C1, amended: after a taken loop-end, the backward scan stops when
its depth counter reaches 0 with the program cursor at the matching
loop-start itself, so the very next forward fetch pre-increments the cursor
and returns the instruction at the position following the loop-start (the
first body instruction); the loop-start guard is not re-fetched. -/
theorem c1_restart_stops_at_loop_start (l : List BFInstruction) (fuel : Nat)
    (it loops x : Int) (h : 1 ≤ loops)
    (hr : restart_loop l fuel it loops = some x) :
    getI l x = some WHILE_BEGIN ∧
    next_inst l x = (getI l (x + 1)).map (fun i => (i, x + 1)) := by
  have h1 := restart_loop_stops l fuel it loops x h hr
  refine ⟨h1, ?_⟩
  have h2 := getI_lt_length h1
  unfold next_inst
  rw [if_neg (by omega)]

/-- Claim C1, witness: instantiating the amended theorem on the
instruction list of the program [] at its taken loop-end. -/
theorem c1_witness :
    getI [WHILE_BEGIN, WHILE_END] 0 = some WHILE_BEGIN ∧
    next_inst [WHILE_BEGIN, WHILE_END] 0 =
      (getI [WHILE_BEGIN, WHILE_END] (0 + 1)).map (fun i => (i, 0 + 1)) :=
  c1_restart_stops_at_loop_start [WHILE_BEGIN, WHILE_END] 3 1 1 0
    (by decide) (by decide)

/-! ### Claim C2 -/

/-- Claim C2: for the unmatched loop-start program [ taken with the cell at
0, skip_loop has no END_OF_PROGRAM case, so the forward scan passes the
end-of-program marker and next_inst advances to end() and dereferences it —
out of bounds.  run() therefore does not terminate normally for any amount
of fuel: the model aborts (none) instead of returning a final state. -/
theorem c2_unmatched_start_aborts :
    ∀ fuel, runProgram fuel ['['] [] = none := by
  intro fuel
  match fuel with
  | 0 => rfl
  | 1 => rfl
  | 2 => rfl
  | 3 => rfl
  | n + 4 => rfl

/-! ### Claim C3 -/

/-- Claim C3: the loader does not produce n + 1 entries.  For the one-byte
source + it produces three entries (the decoded instruction, a stray
COMMENT left over from the resize whose comment says it reserves the
end-of-program slot, and the separately pushed END_OF_PROGRAM); for the
empty source it produces no entries at all, no end-of-program marker, and
leaves the instruction iterator uninitialized. -/
theorem c3_parse_insts_length_bug :
    parse_insts ['+'] = [INCR_BYTE, COMMENT, END_OF_PROGRAM] ∧
    (parse_insts ['+']).length = 3 ∧
    parse_insts [] = [] ∧
    iter_init [] = none := by
  decide

/-! ### Claim C4 -/

/-- Claim C4: on the empty program the constructor returns from parse_insts
early, so the iterator member is never initialized and run() immediately
uses it — undefined behaviour, modelled as none for every amount of fuel,
rather than the clean termination the claim states. -/
theorem c4_empty_program_run_undefined :
    ∀ fuel, runProgram fuel [] [] = none :=
  fun _ => rfl

/-! ### Claim C6 -/

/-- Claim C6: running ++++++++[>++++++++<-]>+. from the all-zero tape
terminates (the model returns a final state) and its whole output stream is
the single byte 65. -/
theorem c6_program_outputs_65 :
    (runProgram 2000 (String.toList "++++++++[>++++++++<-]>+.") []).map
      (fun st => st.output) = some [65] := by
  decide

/-! ### Claim C7 -/

/-- Claim C7: to_inst realizes the fixed character-to-tag table and is
total: each of the eight meaningful characters maps to its tag and every
other character maps to COMMENT. -/
theorem c7_to_inst_total_table :
    to_inst '>' = INCR_PTR ∧ to_inst '<' = DECR_PTR ∧
    to_inst '+' = INCR_BYTE ∧ to_inst '-' = DECR_BYTE ∧
    to_inst '.' = OUT_BYTE ∧ to_inst ',' = READ_BYTE ∧
    to_inst '[' = WHILE_BEGIN ∧ to_inst ']' = WHILE_END ∧
    ∀ c : Char, c ≠ '>' → c ≠ '<' → c ≠ '+' → c ≠ '-' → c ≠ '.' →
      c ≠ ',' → c ≠ '[' → c ≠ ']' → to_inst c = COMMENT := by
  refine ⟨rfl, rfl, rfl, rfl, rfl, rfl, rfl, rfl, ?_⟩
  intro c h1 h2 h3 h4 h5 h6 h7 h8
  simp [to_inst, h1, h2, h3, h4, h5, h6, h7, h8]

/-- Claim C7, witness: the table theorem applied to the letter x, a
character outside the eight meaningful symbols. -/
theorem c7_witness : to_inst 'x' = COMMENT :=
  c7_to_inst_total_table.2.2.2.2.2.2.2.2 'x' (by decide) (by decide)
    (by decide) (by decide) (by decide) (by decide) (by decide) (by decide)

/-! ### Claim C9 -/

/-- Claim C9: prev_inst clamps at the start of the sequence: from any
iterator position at least 0 it never moves before position 0 (the new
position is max (it-1) 0, and at position 0 it returns the first entry
without moving), and the element it returns is a valid entry of the
sequence; consequently the backward scan of restart_loop, started inside
the sequence, can only stop at a nonnegative position. -/
theorem c9_prev_inst_clamps :
    (∀ (l : List BFInstruction) (it it2 : Int) (i : BFInstruction),
        0 ≤ it → prev_inst l it = some (i, it2) →
        0 ≤ it2 ∧ it2 = max (it - 1) 0 ∧ getI l it2 = some i ∧
          (it = 0 → it2 = 0)) ∧
    (∀ (l : List BFInstruction) (fuel : Nat) (it loops x : Int),
        0 ≤ it → restart_loop l fuel it loops = some x → 0 ≤ x) := by
  constructor
  · intro l it it2 i h0 hp
    rcases prev_inst_eq_some hp with ⟨hg, hc⟩
    rcases hc with ⟨he, h2⟩ | ⟨he, h2⟩
    · exact ⟨by omega, by omega, hg, fun _ => h2⟩
    · exact ⟨by omega, by omega, hg, fun hz => absurd hz he⟩
  · intro l fuel
    induction fuel with
    | zero =>
      intro it loops x h0 hr
      rw [restart_loop_zero] at hr
      exact absurd hr (by simp)
    | succ f ih =>
      intro it loops x h0 hr
      rw [restart_loop_succ] at hr
      by_cases hl : loops ≤ 0
      · rw [if_pos hl] at hr
        have : it = x := by simpa using hr
        omega
      · rw [if_neg hl] at hr
        cases hp : prev_inst l it with
        | none => rw [hp] at hr; exact absurd hr (by simp)
        | some p =>
          obtain ⟨i, it2⟩ := p
          rw [hp] at hr
          have hr2 : restart_loop l f it2 (loops + adjB i) = some x := hr
          rcases prev_inst_eq_some hp with ⟨hg, hc⟩
          have h02 : 0 ≤ it2 := by rcases hc with ⟨_, h2⟩ | ⟨_, h2⟩ <;> omega
          exact ih it2 (loops + adjB i) x h02 hr2

/-- Claim C9, witness: the clamp theorem applied at position 0 of a
one-instruction sequence. -/
theorem c9_witness :
    0 ≤ (0 : Int) ∧ (0 : Int) = max (0 - 1) 0 ∧
    getI [END_OF_PROGRAM] 0 = some END_OF_PROGRAM ∧
      ((0 : Int) = 0 → (0 : Int) = 0) :=
  c9_prev_inst_clamps.1 [END_OF_PROGRAM] 0 0 END_OF_PROGRAM
    (by decide) (by decide)

/-! ### A pure-list view of the bracket scans, used to analyse skip_loop and
restart_loop.  scanGen consumes elements of a list one at a time, applying
adj to the depth counter, and returns how many elements were consumed when
the counter first drops to 0; none if the list runs out first. -/

def scanGen (adj : BFInstruction → Int) : List BFInstruction → Int → Option Nat
  | [], L => if L ≤ 0 then some 0 else none
  | i :: rest, L =>
    if L ≤ 0 then some 0
    else (scanGen adj rest (L + adj i)).map (fun k => k + 1)

lemma scanGen_nil (adj : BFInstruction → Int) (L : Int) :
    scanGen adj [] L = if L ≤ 0 then some 0 else none := rfl

lemma scanGen_cons (adj : BFInstruction → Int) (i : BFInstruction)
    (rest : List BFInstruction) (L : Int) :
    scanGen adj (i :: rest) L =
      if L ≤ 0 then some 0
      else (scanGen adj rest (L + adj i)).map (fun k => k + 1) := rfl

/-- Sum of the depth adjustments over a list of instructions. -/
def sumAdj (adj : BFInstruction → Int) (l : List BFInstruction) : Int :=
  (l.map adj).sum

lemma sumAdj_nil (adj : BFInstruction → Int) : sumAdj adj [] = 0 := rfl

lemma sumAdj_cons (adj : BFInstruction → Int) (i : BFInstruction)
    (l : List BFInstruction) :
    sumAdj adj (i :: l) = adj i + sumAdj adj l := by
  simp [sumAdj]

lemma sumAdj_append (adj : BFInstruction → Int) (a b : List BFInstruction) :
    sumAdj adj (a ++ b) = sumAdj adj a + sumAdj adj b := by
  simp [sumAdj]

lemma sumAdj_reverse (adj : BFInstruction → Int) (l : List BFInstruction) :
    sumAdj adj l.reverse = sumAdj adj l := by
  simp [sumAdj, List.sum_reverse]

/-- The scan stops after exactly k elements iff the running depth stays
positive on every proper prefix of those k elements and is non-positive
after all k. -/
lemma scanGen_eq_some_iff (adj : BFInstruction → Int) :
    ∀ (l : List BFInstruction) (L : Int) (k : Nat),
      scanGen adj l L = some k ↔
        (k ≤ l.length ∧ L + sumAdj adj (l.take k) ≤ 0 ∧
         ∀ j : Nat, j < k → 0 < L + sumAdj adj (l.take j)) := by
  intro l
  induction l with
  | nil =>
    intro L k
    rw [scanGen_nil]
    by_cases hL : L ≤ 0
    · rw [if_pos hL]
      constructor
      · intro h
        have hk : 0 = k := by simpa using h
        subst hk
        exact ⟨by simp, by simpa [sumAdj], by omega⟩
      · rintro ⟨h1, h2, h3⟩
        have hk : k = 0 := by simpa using h1
        subst hk
        rfl
    · rw [if_neg hL]
      constructor
      · intro h
        exact absurd h (by simp)
      · rintro ⟨h1, h2, h3⟩
        have hk : k = 0 := by simpa using h1
        subst hk
        simp [sumAdj] at h2
        omega
  | cons i rest ih =>
    intro L k
    rw [scanGen_cons]
    by_cases hL : L ≤ 0
    · rw [if_pos hL]
      constructor
      · intro h
        have hk : 0 = k := by simpa using h
        subst hk
        exact ⟨by simp, by simpa [sumAdj], by omega⟩
      · rintro ⟨h1, h2, h3⟩
        have hk : k = 0 := by
          by_contra hne
          have := h3 0 (by omega)
          simp [sumAdj] at this
          omega
        subst hk
        rfl
    · rw [if_neg hL]
      constructor
      · intro h
        rcases Option.map_eq_some'.mp h with ⟨k0, hk0, hkk⟩
        subst hkk
        rcases (ih (L + adj i) k0).mp hk0 with ⟨h1, h2, h3⟩
        refine ⟨by simpa using h1, ?_, ?_⟩
        · rw [List.take_succ_cons, sumAdj_cons]
          omega
        · intro j hj
          cases j with
          | zero =>
            simp [sumAdj]
            omega
          | succ j0 =>
            have := h3 j0 (by omega)
            rw [List.take_succ_cons, sumAdj_cons]
            omega
      · rintro ⟨h1, h2, h3⟩
        have hk0 : k ≠ 0 := by
          intro hk
          subst hk
          simp [sumAdj] at h2
          omega
        obtain ⟨k0, rfl⟩ : ∃ k0, k = k0 + 1 := ⟨k - 1, by omega⟩
        have hrec : scanGen adj rest (L + adj i) = some k0 := by
          apply (ih (L + adj i) k0).mpr
          refine ⟨by simpa using h1, ?_, ?_⟩
          · rw [List.take_succ_cons, sumAdj_cons] at h2
            omega
          · intro j hj
            have := h3 (j + 1) (by omega)
            rw [List.take_succ_cons, sumAdj_cons] at this
            omega
        rw [hrec]
        rfl

lemma adjF_bounds (i : BFInstruction) : -1 ≤ adjF i ∧ adjF i ≤ 1 := by
  cases i <;> exact ⟨by decide, by decide⟩

lemma adjB_eq_neg_adjF (i : BFInstruction) : adjB i = - adjF i := by
  cases i <;> decide

lemma sumAdj_adjB (l : List BFInstruction) :
    sumAdj adjB l = - sumAdj adjF l := by
  induction l with
  | nil => simp [sumAdj]
  | cons i rest ih =>
    rw [sumAdj_cons, sumAdj_cons, ih, adjB_eq_neg_adjF]
    ring

/-- Soundness of the forward scan: whenever the fueled skip_loop returns a
position, the list scan over the instructions after the current position
returns the number of consumed entries. -/
lemma skip_loop_sound (l : List BFInstruction) :
    ∀ (fuel : Nat) (it loops m : Int), -1 ≤ it →
      skip_loop l fuel it loops = some m →
      ∃ k : Nat, scanGen adjF (l.drop (it + 1).toNat) loops = some k ∧
        m = it + k := by
  intro fuel
  induction fuel with
  | zero =>
    intro it loops m h0 hs
    rw [skip_loop_zero] at hs
    exact absurd hs (by simp)
  | succ f ih =>
    intro it loops m h0 hs
    rw [skip_loop_succ] at hs
    by_cases hl : loops ≤ 0
    · rw [if_pos hl] at hs
      have hm : it = m := by simpa using hs
      refine ⟨0, ?_, by omega⟩
      cases hd : l.drop (it + 1).toNat with
      | nil => rw [scanGen_nil, if_pos hl]
      | cons a rest => rw [scanGen_cons, if_pos hl]
    · rw [if_neg hl] at hs
      cases hn : next_inst l it with
      | none => rw [hn] at hs; exact absurd hs (by simp)
      | some p =>
        obtain ⟨i, it2⟩ := p
        rw [hn] at hs
        have hs2 : skip_loop l f it2 (loops + adjF i) = some m := hs
        rcases next_inst_eq_some hn with ⟨hit2, hg⟩
        subst hit2
        rcases ih (it + 1) (loops + adjF i) m (by omega) hs2 with ⟨k, hk, hm⟩
        refine ⟨k + 1, ?_, by omega⟩
        rcases getI_eq_some.mp hg with ⟨hge0, hget⟩
        rcases List.get?_eq_some.mp hget with ⟨hlt, hgete⟩
        have hdrop := List.drop_eq_getElem_cons hlt
        rw [hdrop, scanGen_cons, if_neg hl]
        have hel : l[(it + 1).toNat] = i := by
          have hq := hget
          rw [List.get?_eq_getElem?, List.getElem?_eq_getElem hlt] at hq
          exact Option.some.inj hq
        rw [hel, show (it + 1).toNat + 1 = (it + 1 + 1).toNat by omega, hk]
        rfl

/-- Completeness of the backward scan: if the list scan over the reversed
prefix before the current position consumes k entries, restart_loop with at
least k + 1 fuel stops exactly k positions back. -/
lemma restart_loop_complete (l : List BFInstruction) :
    ∀ (k : Nat) (it loops : Int) (fuel : Nat), 0 ≤ it →
      it ≤ (l.length : Int) →
      scanGen adjB ((l.take it.toNat).reverse) loops = some k →
      k + 1 ≤ fuel →
      restart_loop l fuel it loops = some (it - k) := by
  intro k
  induction k with
  | zero =>
    intro it loops fuel h0 hlen hscan hfuel
    have hL : loops ≤ 0 := by
      by_contra hL
      cases hc : (l.take it.toNat).reverse with
      | nil =>
        rw [hc, scanGen_nil, if_neg hL] at hscan
        exact absurd hscan (by simp)
      | cons a rest =>
        rw [hc, scanGen_cons, if_neg hL] at hscan
        rcases Option.map_eq_some'.mp hscan with ⟨k0, _, hkk⟩
        omega
    obtain ⟨f, rfl⟩ : ∃ f, fuel = f + 1 := ⟨fuel - 1, by omega⟩
    rw [restart_loop_succ, if_pos hL]
    norm_num
  | succ k0 ih =>
    intro it loops fuel h0 hlen hscan hfuel
    have hL : ¬ loops ≤ 0 := by
      intro hL
      have h00 : (0 : Nat) = k0 + 1 := by
        cases hc : (l.take it.toNat).reverse with
        | nil =>
          rw [hc, scanGen_nil, if_pos hL] at hscan
          simp at hscan
        | cons a rest =>
          rw [hc, scanGen_cons, if_pos hL] at hscan
          simp at hscan
      omega
    have hit : ¬ it = 0 := by
      intro h
      subst h
      rw [show ((0 : Int)).toNat = 0 from rfl] at hscan
      rw [List.take_zero, List.reverse_nil, scanGen_nil, if_neg hL] at hscan
      exact absurd hscan (by simp)
    have hn1 : (it - 1).toNat < l.length := by omega
    have htn : it.toNat = (it - 1).toNat + 1 := by omega
    have htake : l.take it.toNat =
        l.take ((it - 1).toNat) ++ [l[(it - 1).toNat]] := by
      rw [htn, List.take_succ, List.getElem?_eq_getElem hn1]
      rfl
    have hrev : (l.take it.toNat).reverse =
        l[(it - 1).toNat] :: (l.take ((it - 1).toNat)).reverse := by
      rw [htake, List.reverse_append, List.reverse_singleton]
      rfl
    rw [hrev, scanGen_cons, if_neg hL] at hscan
    rcases Option.map_eq_some'.mp hscan with ⟨k1, hk1, hkk⟩
    rw [show k1 = k0 from by omega] at hk1
    obtain ⟨f, rfl⟩ : ∃ f, fuel = f + 1 := ⟨fuel - 1, by omega⟩
    rw [restart_loop_succ, if_neg hL]
    have hprev : prev_inst l it =
        some (l[(it - 1).toNat], it - 1) := by
      unfold prev_inst
      rw [if_neg hit]
      have hgi : getI l (it - 1) = some (l[(it - 1).toNat]) := by
        apply getI_eq_some.mpr
        refine ⟨by omega, ?_⟩
        rw [List.get?_eq_getElem?, List.getElem?_eq_getElem hn1]
      rw [hgi]
      rfl
    rw [hprev]
    have hrec := ih (it - 1) (loops + adjB (l[(it - 1).toNat])) f
      (by omega) (by omega) hk1 (by omega)
    show restart_loop l f (it - 1) (loops + adjB (l[(it - 1).toNat])) =
      some (it - (k0 + 1 : Nat))
    rw [hrec]
    congr 1
    push_cast
    omega

/-- Prefix sums of the forward depth adjustments. -/
def psum (l : List BFInstruction) (t : Nat) : Int :=
  sumAdj adjF (l.take t)

lemma psum_sub (l : List BFInstruction) (a b : Nat) (hab : a ≤ b) :
    sumAdj adjF ((l.take b).drop a) = psum l b - psum l a := by
  have h1 := congrArg (sumAdj adjF) (List.take_append_drop a (l.take b)).symm
  rw [sumAdj_append, List.take_take, Nat.min_eq_left hab] at h1
  unfold psum
  omega

lemma seg_drop (l : List BFInstruction) (a j : Nat) :
    sumAdj adjF ((l.drop a).take j) = psum l (a + j) - psum l a := by
  have h := List.drop_take (a + j) a l
  rw [show a + j - a = j from by omega] at h
  rw [← h]
  exact psum_sub l a (a + j) (by omega)

lemma seg_revtake (l : List BFInstruction) (M j : Nat) (hM : M ≤ l.length)
    (hj : j ≤ M) :
    sumAdj adjF (((l.take M).reverse).take j) = psum l M - psum l (M - j) := by
  have hlen : (l.take M).length = M := by
    rw [List.length_take]
    omega
  have h := @List.take_reverse _ (l.take M) j
  rw [hlen] at h
  rw [h, sumAdj_reverse]
  exact psum_sub l (M - j) M (by omega)

lemma psum_succ (l : List BFInstruction) (t : Nat) (h : t < l.length) :
    psum l (t + 1) = psum l t + adjF (l[t]) := by
  unfold psum
  rw [List.take_succ, List.getElem?_eq_getElem h, sumAdj_append]
  simp [sumAdj]

/-- The combinatorial heart of the skip/restart symmetry: if the forward
scan from a loop-start at position X consumes k entries (stopping at
position X + k), then the backward scan over the reversed prefix before
position X + k consumes exactly k entries — it stops exactly at X. -/
lemma skip_scan_to_restart_scan (l : List BFInstruction) (X k : Nat)
    (hX : l.get? X = some WHILE_BEGIN)
    (hscan : scanGen adjF (l.drop (X + 1)) 1 = some k) :
    scanGen adjB ((l.take (X + k)).reverse) 1 = some k := by
  rcases (scanGen_eq_some_iff adjF (l.drop (X + 1)) 1 k).mp hscan with
    ⟨h1, h2, h3⟩
  rcases List.get?_eq_some.mp hX with ⟨hXlt, hXel⟩
  have hdl : (l.drop (X + 1)).length = l.length - (X + 1) := by simp
  have hk1 : 1 ≤ k := by
    by_contra hcon
    have hk0 : k = 0 := by omega
    subst hk0
    simp [sumAdj] at h2
  have hMlt : X + k < l.length := by omega
  have hXlel : l[X] = WHILE_BEGIN := by
    have hq := hX
    rw [List.get?_eq_getElem?, List.getElem?_eq_getElem hXlt] at hq
    exact Option.some.inj hq
  have hstep : psum l (X + 1) = psum l X + 1 := by
    rw [psum_succ l X hXlt, hXlel]
    norm_num [adjF]
  have hA : ∀ j : Nat, j < k → psum l X + 1 ≤ psum l (X + 1 + j) := by
    intro j hj
    have := h3 j hj
    rw [seg_drop] at this
    omega
  have hB : psum l (X + 1 + k) ≤ psum l X := by
    have := h2
    rw [seg_drop] at this
    omega
  have hatM : psum l (X + k) = psum l X + 1 := by
    have hA1 := hA (k - 1) (by omega)
    rw [show X + 1 + (k - 1) = X + k from by omega] at hA1
    have hstepM := psum_succ l (X + k) hMlt
    rcases adjF_bounds (l[X + k]) with ⟨hb1, hb2⟩
    rw [show X + 1 + k = X + k + 1 from by omega] at hB
    omega
  apply (scanGen_eq_some_iff adjB ((l.take (X + k)).reverse) 1 k).mpr
  have hrlen : ((l.take (X + k)).reverse).length = X + k := by
    rw [List.length_reverse, List.length_take]
    omega
  refine ⟨by omega, ?_, ?_⟩
  · rw [sumAdj_adjB, seg_revtake l (X + k) k (by omega) (by omega)]
    rw [show X + k - k = X from by omega]
    omega
  · intro j hj
    rw [sumAdj_adjB, seg_revtake l (X + k) j (by omega) (by omega)]
    have := hA (k - j - 1) (by omega)
    rw [show X + 1 + (k - j - 1) = X + k - j from by omega] at this
    omega

/-! ### Claim C5 -/

/-- Claim C5: from any loop-start position x, if the forward skip scan
completes (as it does on every well-formed program, stopping at the matching
loop-end position m), then the backward restart scan started immediately at
m brings the program cursor back exactly to x — the loop-start position
itself, the instruction immediately preceding its successor — and not
before it. -/
theorem c5_skip_restart_symmetry (l : List BFInstruction) (fuel : Nat)
    (x m : Int) (hx : getI l x = some WHILE_BEGIN)
    (hs : skip_loop l fuel x 1 = some m) :
    restart_loop l ((m - x).toNat + 1) m 1 = some x := by
  have hx0 : 0 ≤ x := (getI_lt_length hx).1
  rcases skip_loop_sound l fuel x 1 m (by omega) hs with ⟨k, hscan, hm⟩
  rw [show (x + 1).toNat = x.toNat + 1 from by omega] at hscan
  have hget : l.get? x.toNat = some WHILE_BEGIN := (getI_eq_some.mp hx).2
  have hcore := skip_scan_to_restart_scan l x.toNat k hget hscan
  have hXlt : x.toNat < l.length := by
    rcases List.get?_eq_some.mp hget with ⟨h, _⟩
    exact h
  have hk_le : k ≤ l.length - (x.toNat + 1) := by
    rcases (scanGen_eq_some_iff adjF (l.drop (x.toNat + 1)) 1 k).mp hscan
      with ⟨h1, _, _⟩
    simpa using h1
  have hk1 : 1 ≤ k := by
    rcases (scanGen_eq_some_iff adjF (l.drop (x.toNat + 1)) 1 k).mp hscan
      with ⟨_, h2, _⟩
    by_contra hcon
    have hk0 : k = 0 := by omega
    subst hk0
    simp [sumAdj] at h2
  have hmk : m.toNat = x.toNat + k := by omega
  have hscanB : scanGen adjB ((l.take m.toNat).reverse) 1 = some k := by
    rw [hmk]
    exact hcore
  have hfin := restart_loop_complete l k m 1 ((m - x).toNat + 1)
    (by omega) (by omega) hscanB (by omega)
  rw [hfin]
  congr 1
  omega

/-- Claim C5, witness: the symmetry theorem on the program [] — the skip
from the loop-start at position 0 stops at the loop-end at position 1, and
the restart from there returns the cursor to position 0. -/
theorem c5_witness :
    restart_loop [WHILE_BEGIN, WHILE_END, COMMENT, END_OF_PROGRAM]
      (((1 : Int) - 0).toNat + 1) 1 1 = some 0 :=
  c5_skip_restart_symmetry [WHILE_BEGIN, WHILE_END, COMMENT, END_OF_PROGRAM]
    5 0 1 (by decide) (by decide)

/-! ### Claim C8 -/

/-- Write v into the current cell (the successful branch of tapeSet). -/
def setCell (st : BFState) (v : Nat) : BFState :=
  { st with tape := fun j => if j = st.ptr then v else st.tape j }

/-- Iterate one instruction n times through the dispatch effect. -/
def exec_iter (i : BFInstruction) : Nat → BFState → Option BFState
  | 0, st => some st
  | n + 1, st => (exec_inst i 0 st).bind (exec_iter i n)

lemma setCell_ptr (st : BFState) (v : Nat) : (setCell st v).ptr = st.ptr := rfl

lemma setCell_get (st : BFState) (v : Nat) :
    (setCell st v).tape (setCell st v).ptr = v := by
  simp [setCell]

lemma setCell_setCell (st : BFState) (u v : Nat) :
    setCell (setCell st u) v = setCell st v := by
  unfold setCell
  congr 1
  funext j
  by_cases hj : j = st.ptr <;> simp [hj]

lemma setCell_self (st : BFState) : setCell st (st.tape st.ptr) = st := by
  unfold setCell
  have h : (fun j => if j = st.ptr then st.tape st.ptr else st.tape j) =
      st.tape := by
    funext j
    by_cases hj : j = st.ptr
    · rw [if_pos hj, hj]
    · rw [if_neg hj]
  rw [h]

lemma exec_inst_incr (st : BFState) (h1 : 0 ≤ st.ptr)
    (h2 : st.ptr < (BF_PTR_SIZE : Int)) :
    exec_inst INCR_BYTE 0 st =
      some (setCell st ((st.tape st.ptr + 1) % 256)) := by
  show (tapeGet st).bind (fun v => tapeSet st ((v + 1) % 256)) = _
  unfold tapeGet tapeSet
  rw [if_pos ⟨h1, h2⟩, Option.some_bind, if_pos ⟨h1, h2⟩]
  rfl

lemma exec_inst_decr (st : BFState) (h1 : 0 ≤ st.ptr)
    (h2 : st.ptr < (BF_PTR_SIZE : Int)) :
    exec_inst DECR_BYTE 0 st =
      some (setCell st ((st.tape st.ptr + 255) % 256)) := by
  show (tapeGet st).bind (fun v => tapeSet st ((v + 255) % 256)) = _
  unfold tapeGet tapeSet
  rw [if_pos ⟨h1, h2⟩, Option.some_bind, if_pos ⟨h1, h2⟩]
  rfl

lemma exec_iter_incr :
    ∀ (n : Nat) (st : BFState), 0 ≤ st.ptr → st.ptr < (BF_PTR_SIZE : Int) →
      st.tape st.ptr < 256 →
      exec_iter INCR_BYTE n st =
        some (setCell st ((st.tape st.ptr + n) % 256)) := by
  intro n
  induction n with
  | zero =>
    intro st h1 h2 h3
    show some st = _
    rw [Nat.add_zero, Nat.mod_eq_of_lt h3, setCell_self]
  | succ n ih =>
    intro st h1 h2 h3
    show (exec_inst INCR_BYTE 0 st).bind (exec_iter INCR_BYTE n) = _
    rw [exec_inst_incr st h1 h2, Option.some_bind]
    rw [ih (setCell st ((st.tape st.ptr + 1) % 256)) h1 h2
      (by rw [setCell_get]; exact Nat.mod_lt _ (by omega))]
    rw [setCell_setCell, setCell_get, Nat.mod_add_mod]
    congr 2
    omega

lemma exec_iter_decr :
    ∀ (n : Nat) (st : BFState), 0 ≤ st.ptr → st.ptr < (BF_PTR_SIZE : Int) →
      st.tape st.ptr < 256 →
      exec_iter DECR_BYTE n st =
        some (setCell st ((st.tape st.ptr + 255 * n) % 256)) := by
  intro n
  induction n with
  | zero =>
    intro st h1 h2 h3
    show some st = _
    rw [Nat.mul_zero, Nat.add_zero, Nat.mod_eq_of_lt h3, setCell_self]
  | succ n ih =>
    intro st h1 h2 h3
    show (exec_inst DECR_BYTE 0 st).bind (exec_iter DECR_BYTE n) = _
    rw [exec_inst_decr st h1 h2, Option.some_bind]
    rw [ih (setCell st ((st.tape st.ptr + 255) % 256)) h1 h2
      (by rw [setCell_get]; exact Nat.mod_lt _ (by omega))]
    rw [setCell_setCell, setCell_get, Nat.mod_add_mod]
    congr 2
    omega

/-- Claim C8: increment-cell and decrement-cell act on the current cell
modulo 256: iterating either instruction 256·k times on a state whose cell
holds a byte value returns exactly the original state, so 256 consecutive
increments (or decrements) are the identity on the cell. -/
theorem c8_incr_decr_mod256 (st : BFState) (k : Nat) (h1 : 0 ≤ st.ptr)
    (h2 : st.ptr < (BF_PTR_SIZE : Int)) (h3 : st.tape st.ptr < 256) :
    exec_iter INCR_BYTE (256 * k) st = some st ∧
    exec_iter DECR_BYTE (256 * k) st = some st := by
  constructor
  · rw [exec_iter_incr (256 * k) st h1 h2 h3]
    rw [show (st.tape st.ptr + 256 * k) % 256 = st.tape st.ptr from by omega]
    rw [setCell_self]
  · rw [exec_iter_decr (256 * k) st h1 h2 h3]
    have hmod : (st.tape st.ptr + 255 * (256 * k)) % 256 = st.tape st.ptr := by
      rw [show 255 * (256 * k) = 256 * (255 * k) from by ring]
      omega
    rw [hmod, setCell_self]

/-- Claim C8, witness: 256 increments and 256 decrements on cell 0 of the
zero tape give back the initial state. -/
theorem c8_witness :
    exec_iter INCR_BYTE (256 * 1)
      { insts := [], iter := -1, tape := fun _ => 0, ptr := 0, input := [],
        output := [] } =
      some { insts := [], iter := -1, tape := fun _ => 0, ptr := 0,
             input := [], output := [] } ∧
    exec_iter DECR_BYTE (256 * 1)
      { insts := [], iter := -1, tape := fun _ => 0, ptr := 0, input := [],
        output := [] } =
      some { insts := [], iter := -1, tape := fun _ => 0, ptr := 0,
             input := [], output := [] } :=
  c8_incr_decr_mod256
    { insts := [], iter := -1, tape := fun _ => 0, ptr := 0, input := [],
      output := [] } 1 (by decide) (by decide) (by decide)

/-! ### Claim C10 -/

lemma dropWhile_head_false {p : Nat → Bool} :
    ∀ (l : List Nat) (b : Nat) (rest : List Nat),
      l.dropWhile p = b :: rest → p b = false := by
  intro l
  induction l with
  | nil =>
    intro b rest h
    simp [List.dropWhile] at h
  | cons a l2 ih =>
    intro b rest h
    rw [List.dropWhile_cons] at h
    by_cases hp : p a
    · rw [if_pos hp] at h
      exact ih b rest h
    · rw [if_neg hp] at h
      have hb : a = b := (List.cons.injEq a l2 b rest).mp h |>.1
      rw [← hb]
      exact Bool.not_eq_true _ |>.mp hp

/-- Claim C10: the input-cell instruction performs whitespace-skipping
formatted extraction.  If the input stream holds a non-whitespace byte,
exec_inst stores the first such byte into tape[cursor] and consumes it
together with all whitespace bytes before it; that stored byte is never a
whitespace byte, and the discarded prefix is exactly the leading whitespace
run.  If the stream holds only whitespace, extraction fails and the state
(tape included) is unchanged. -/
theorem c10_read_skips_whitespace :
    (∀ (st : BFState) (b : Nat) (rest : List Nat),
        0 ≤ st.ptr → st.ptr < (BF_PTR_SIZE : Int) →
        st.input.dropWhile is_ws = b :: rest →
        exec_inst READ_BYTE 0 st =
          some ({ st with
                  input := rest,
                  tape := fun j => if j = st.ptr then b else st.tape j }) ∧
        is_ws b = false ∧
        st.input = st.input.takeWhile is_ws ++ b :: rest ∧
        ∀ c ∈ st.input.takeWhile is_ws, is_ws c = true) ∧
    (∀ st : BFState, st.input.dropWhile is_ws = [] →
        exec_inst READ_BYTE 0 st = some st) := by
  constructor
  · intro st b rest h1 h2 hdrop
    refine ⟨?_, dropWhile_head_false st.input b rest hdrop, ?_, ?_⟩
    · show (match st.input.dropWhile is_ws with
        | [] => some st
        | b2 :: rest2 => tapeSet { st with input := rest2 } b2) = _
      rw [hdrop]
      show tapeSet { st with input := rest } b = _
      unfold tapeSet
      rw [if_pos ⟨h1, h2⟩]
    · conv_lhs => rw [← List.takeWhile_append_dropWhile is_ws st.input]
      rw [hdrop]
    · intro c hc
      exact List.mem_takeWhile_imp hc
  · intro st hdrop
    show (match st.input.dropWhile is_ws with
      | [] => some st
      | b2 :: rest2 => tapeSet { st with input := rest2 } b2) = _
    rw [hdrop]

/-- Claim C10, witness: reading from the stream 32, 65, 66 (a space then
two letters) skips the space and stores 65 — not the whitespace byte — at
the cursor. -/
theorem c10_witness :
    exec_inst READ_BYTE 0
        { insts := [], iter := -1, tape := fun _ => 0, ptr := 0,
          input := [32, 65, 66], output := [] } =
      some { insts := [], iter := -1,
             tape := fun j => if j = 0 then 65 else 0, ptr := 0,
             input := [66], output := [] } ∧
    is_ws 65 = false ∧
    ([32, 65, 66] : List Nat) =
      List.takeWhile is_ws [32, 65, 66] ++ 65 :: [66] ∧
    ∀ c ∈ List.takeWhile is_ws ([32, 65, 66] : List Nat), is_ws c = true :=
  c10_read_skips_whitespace.1
    { insts := [], iter := -1, tape := fun _ => 0, ptr := 0,
      input := [32, 65, 66], output := [] } 65 [66]
    (by decide) (by decide) (by decide)

/-! ### Shape of the loader output on nonempty sources, and the behaviour
of run on programs made only of no-op characters.  These support the
analysis of parse_insts: on a nonempty source the loader yields one decoded
instruction per byte, then one leftover COMMENT from the resize, then the
pushed END_OF_PROGRAM. -/

lemma parse_insts_fill :
    ∀ (l : List Char) (k : Nat) (pre : List BFInstruction) (j : Nat),
      pre.length = k →
      List.foldl
        (fun acc ic =>
          if to_inst ic.2 = COMMENT then acc else acc.set ic.1 (to_inst ic.2))
        (pre ++ List.replicate (l.length + j) COMMENT) (List.enumFrom k l) =
        pre ++ l.map to_inst ++ List.replicate j COMMENT := by
  intro l
  induction l with
  | nil =>
    intro k pre j hk
    simp
  | cons c l2 ih =>
    intro k pre j hk
    rw [List.enumFrom_cons, List.foldl_cons]
    have hrep : List.replicate ((c :: l2).length + j) COMMENT =
        COMMENT :: List.replicate (l2.length + j) COMMENT := by
      rw [show (c :: l2).length + j = (l2.length + j) + 1 from by
        simp; omega]
      rfl
    have hstep :
        (if to_inst (k, c).2 = COMMENT then
            pre ++ List.replicate ((c :: l2).length + j) COMMENT
          else (pre ++ List.replicate ((c :: l2).length + j) COMMENT).set
            (k, c).1 (to_inst (k, c).2)) =
        (pre ++ [to_inst c]) ++ List.replicate (l2.length + j) COMMENT := by
      rw [hrep]
      by_cases hc : to_inst c = COMMENT
      · rw [if_pos hc, hc]
        simp
      · rw [if_neg hc]
        rw [List.set_append_right k (to_inst c) (by omega)]
        rw [show k - pre.length = 0 from by omega]
        simp
    rw [hstep]
    have hlen2 : (pre ++ [to_inst c]).length = k + 1 := by simp; omega
    have := ih (k + 1) (pre ++ [to_inst c]) j hlen2
    rw [this]
    simp

lemma parse_insts_eq (src : List Char) (h : src ≠ []) :
    parse_insts src = src.map to_inst ++ [COMMENT, END_OF_PROGRAM] := by
  unfold parse_insts
  rw [if_neg (by simpa using h)]
  show (List.foldl
      (fun acc ic =>
        if to_inst ic.2 = COMMENT then acc else acc.set ic.1 (to_inst ic.2))
      (List.replicate (src.length + 1) COMMENT) src.enum) ++
      [END_OF_PROGRAM] = _
  have hfill := parse_insts_fill src 0 [] 1 rfl
  rw [List.nil_append] at hfill
  rw [show src.enum = List.enumFrom 0 src from rfl, hfill]
  simp

lemma run_zero (st : BFState) : run 0 st = none := rfl

lemma run_succ (f : Nat) (st : BFState) :
    run (f + 1) st =
      match next_inst st.insts st.iter with
      | none => none
      | some (i, it2) =>
        if i = END_OF_PROGRAM then some { st with iter := it2 }
        else (exec_inst i f { st with iter := it2 }).bind (run f) := rfl

lemma next_inst_of_getI {l : List BFInstruction} {it : Int}
    {i : BFInstruction} (h : getI l (it + 1) = some i) :
    next_inst l it = some (i, it + 1) := by
  have hb := getI_lt_length h
  unfold next_inst
  rw [if_neg (by omega), h]
  rfl

/-- Fetching c consecutive COMMENT entries followed by an END_OF_PROGRAM
makes run terminate with only the iterator moved. -/
lemma run_comments :
    ∀ (c fuel : Nat) (st : BFState), c + 2 ≤ fuel →
      (∀ j : Nat, j < c →
        getI st.insts (st.iter + 1 + (j : Int)) = some COMMENT) →
      getI st.insts (st.iter + 1 + (c : Int)) = some END_OF_PROGRAM →
      run fuel st = some { st with iter := st.iter + 1 + (c : Int) } := by
  intro c
  induction c with
  | zero =>
    intro fuel st hf hcom heop
    obtain ⟨f, rfl⟩ : ∃ f, fuel = f + 1 := ⟨fuel - 1, by omega⟩
    have e0 : st.iter + 1 + ((0 : Nat) : Int) = st.iter + 1 := by simp
    rw [e0] at heop ⊢
    rw [run_succ, next_inst_of_getI heop]
    rfl
  | succ c ih =>
    intro fuel st hf hcom heop
    obtain ⟨f, rfl⟩ : ∃ f, fuel = f + 1 := ⟨fuel - 1, by omega⟩
    have h0 := hcom 0 (by omega)
    have e0 : st.iter + 1 + ((0 : Nat) : Int) = st.iter + 1 := by simp
    rw [e0] at h0
    rw [run_succ, next_inst_of_getI h0]
    rw [show st.iter + 1 + (((c + 1) : Nat) : Int) =
      st.iter + 1 + 1 + (c : Int) from by push_cast; ring]
    have hcom2 : ∀ j : Nat, j < c →
        getI st.insts (st.iter + 1 + 1 + (j : Int)) = some COMMENT := by
      intro j hj
      have hx := hcom (j + 1) (by omega)
      rw [show st.iter + 1 + (((j + 1) : Nat) : Int) =
        st.iter + 1 + 1 + (j : Int) from by push_cast; ring] at hx
      exact hx
    have heop2 : getI st.insts (st.iter + 1 + 1 + (c : Int)) =
        some END_OF_PROGRAM := by
      have hx := heop
      rw [show st.iter + 1 + (((c + 1) : Nat) : Int) =
        st.iter + 1 + 1 + (c : Int) from by push_cast; ring] at hx
      exact hx
    exact ih f { st with iter := st.iter + 1 } (by omega) hcom2 heop2

/-- On every nonempty source made only of no-op characters, run terminates
normally with no output and the tape still all zero; only the iterator has
moved.  (Together with the empty-source undefined behaviour recorded above,
this delimits exactly where the no-op-program property holds.) -/
theorem run_all_no_ops (src : List Char) (input : List Nat) (h : src ≠ [])
    (hcom : ∀ ch ∈ src, to_inst ch = COMMENT) :
    runProgram (src.length + 3) src input =
      some { insts := parse_insts src,
             iter := -1 + 1 + (((src.length + 1) : Nat) : Int),
             tape := fun _ => 0, ptr := 0, input := input, output := [] } := by
  have hlen : ¬ src.length = 0 := by simpa using h
  have hinit : initState src input =
      some { insts := parse_insts src, iter := -1, tape := fun _ => 0,
             ptr := 0, input := input, output := [] } := by
    unfold initState iter_init
    rw [if_neg hlen]
  have hshape := parse_insts_eq src h
  have hmaplen : (src.map to_inst).length = src.length := by simp
  have hc : ∀ j : Nat, j < src.length + 1 →
      getI (parse_insts src) (-1 + 1 + (j : Int)) = some COMMENT := by
    intro j hj
    apply getI_eq_some.mpr
    refine ⟨by omega, ?_⟩
    rw [show ((-1 : Int) + 1 + (j : Int)).toNat = j from by omega, hshape]
    by_cases hjn : j < src.length
    · rw [List.get?_eq_getElem?, List.getElem?_append_left (by omega)]
      rw [List.getElem?_map, List.getElem?_eq_getElem hjn]
      have := hcom (src[j]) (List.getElem_mem hjn)
      rw [Option.map_some', this]
    · rw [List.get?_eq_getElem?, List.getElem?_append_right (by omega)]
      rw [hmaplen, show j - src.length = 0 from by omega]
      rfl
  have he : getI (parse_insts src)
      (-1 + 1 + (((src.length + 1) : Nat) : Int)) = some END_OF_PROGRAM := by
    apply getI_eq_some.mpr
    refine ⟨by omega, ?_⟩
    rw [show ((-1 : Int) + 1 + (((src.length + 1) : Nat) : Int)).toNat =
      src.length + 1 from by omega, hshape]
    rw [List.get?_eq_getElem?, List.getElem?_append_right (by omega)]
    rw [hmaplen, show src.length + 1 - src.length = 1 from by omega]
    rfl
  have hrun := run_comments (src.length + 1) (src.length + 3)
    { insts := parse_insts src, iter := -1, tape := fun _ => 0, ptr := 0,
      input := input, output := [] } (by omega) hc he
  unfold runProgram
  rw [hinit, Option.some_bind, hrun]
